import Mathlib

/-!
Verification development for the treeclip exclusion-matching, traversal and
aggregation pipeline (`src/core/exclude/mod.rs`, `src/core/traversal/walker.rs`,
`src/core/traversal/filter.rs`, `src/core/utils.rs`, `src/commands/run/run.rs`).

Paths are modelled as lists of components, mirroring `std::path::Path`
components (RootDir, CurDir, ParentDir, Normal).  A file name is either a
valid UTF-8 string or a non-UTF-8 name carried by its per-byte lossy
decoding (what `Path::display` renders; `OsStr::to_str` returns `None` on
it).  The filesystem snapshot seen by
a run is a tree of nodes; file contents are `Option String`, where `none`
stands for content that cannot be decoded as text (so `fs::read_to_string`
fails on it).
-/

namespace Treeclip

/-- A file name as the OS reports it: `utf8 s` when it is valid UTF-8
(`OsStr::to_str` succeeds), otherwise `nonUtf8 lossy` where `lossy` is the
name's per-byte lossy decoding (each invalid byte replaced by U+FFFD, valid
UTF-8 runs preserved) — the string `Path::display` renders for it. -/
inductive FName where
  | utf8 (s : String)
  | nonUtf8 (lossy : String)
deriving DecidableEq, Repr

/-- Models `OsStr::to_str`: `some` exactly on valid UTF-8 names. -/
def FName.to_str : FName → Option String
  | FName.utf8 s => some s
  | FName.nonUtf8 _ => none

/-- One component of a `std::path::Path`. -/
inductive Comp where
  | rootDir
  | curDir
  | parentDir
  | normal (n : FName)
deriving DecidableEq, Repr

/-- A path, as its list of components (`Path::components`).  `PathBuf`
equality in Rust is component-wise equality, which is `=` here. -/
abbrev PathT := List Comp

/-- Boolean list prefix test, used to model `Path::strip_prefix`
(component-wise). -/
def isPfx {α : Type} [DecidableEq α] : List α → List α → Bool
  | [], _ => true
  | _ :: _, [] => false
  | a :: as, b :: bs => if a = b then isPfx as bs else false

/-- Models `entry_path.strip_prefix(&self.root).unwrap_or(entry_path)` in
`Walker::write_file_content`: drop the root components when they are a
prefix, otherwise return the path unchanged. -/
def stripPfx (root p : PathT) : PathT :=
  if isPfx root p then p.drop root.length else p

/-- Display of a single component (`Path::display`); a non-UTF-8 name is
rendered by its per-byte lossy decoding, which the name carries. -/
def Comp.disp : Comp → String
  | Comp.rootDir => "/"
  | Comp.curDir => "."
  | Comp.parentDir => ".."
  | Comp.normal (FName.utf8 s) => s
  | Comp.normal (FName.nonUtf8 lossy) => lossy

/-- Display of a path (`Path::display`): components joined by `/`, with a
leading root rendered as a single `/`. -/
def dispPath : PathT → String
  | [] => ""
  | Comp.rootDir :: rest => "/" ++ String.intercalate "/" (rest.map Comp.disp)
  | p => String.intercalate "/" (p.map Comp.disp)

/-- The Unicode White_Space property, as `char::is_whitespace` tests it:
U+0009..U+000D, U+0020, U+0085, U+00A0, U+1680, U+2000..U+200A, U+2028,
U+2029, U+202F, U+205F and U+3000. -/
def rustIsWhitespace (c : Char) : Bool :=
  (0x09 ≤ c.toNat && c.toNat ≤ 0x0D) || c.toNat = 0x20 || c.toNat = 0x85
    || c.toNat = 0xA0 || c.toNat = 0x1680
    || (0x2000 ≤ c.toNat && c.toNat ≤ 0x200A)
    || c.toNat = 0x2028 || c.toNat = 0x2029 || c.toNat = 0x202F
    || c.toNat = 0x205F || c.toNat = 0x3000

/-- Models `str::trim_end`: remove trailing Unicode-whitespace characters. -/
def trimEnd (s : String) : String :=
  String.mk ((s.data.reverse.dropWhile rustIsWhitespace).reverse)

/-- One resolution step of path canonicalization: `.` is dropped and `..`
pops one component. -/
def canonStep (acc : PathT) (c : Comp) : PathT :=
  match c with
  | Comp.curDir => acc
  | Comp.parentDir => acc.dropLast
  | c => acc ++ [c]

/-- Modelled from the spec: canonical/absolute path comparison
(`fs::canonicalize` without symlinks).  An absolute path is resolved from the
root, a relative one against the current working directory `cwd`. -/
def canonize (cwd p : PathT) : PathT :=
  match p with
  | Comp.rootDir :: rest => rest.foldl canonStep [Comp.rootDir]
  | _ => p.foldl canonStep cwd

/-- Whether a string starts with the given character (`str::starts_with`). -/
def startsWithCh (c : Char) (s : String) : Bool :=
  match s.data with
  | x :: _ => x == c
  | [] => false

/-- Whether a string ends with the given character (`str::ends_with`). -/
def endsWithCh (c : Char) (s : String) : Bool :=
  match s.data.getLast? with
  | some x => x == c
  | none => false

/-- Fuel-indexed wildcard matching; the recursion consumes one fuel per
step, and every step shrinks `p.length + s.length`, so the initial fuel
supplied by `wildMatch` is never exhausted. -/
def wildMatchF : Nat → List Char → List Char → Bool
  | 0, p, s => p.isEmpty && s.isEmpty
  | fuel + 1, p, s =>
    match p, s with
    | [], s2 => s2.isEmpty
    | '*' :: ps, [] => wildMatchF fuel ps []
    | '*' :: ps, c :: s2 =>
      wildMatchF fuel ps (c :: s2) || wildMatchF fuel ('*' :: ps) s2
    | _ :: _, [] => false
    | q :: ps, c :: s2 => (q == '?' || q == c) && wildMatchF fuel ps s2

/-- Models the glob engine used by the `ignore` crate for the fragment of
gitignore syntax this pipeline exercises: literal characters, `?` for one
character and `*` for any run of characters. -/
def wildMatch (p s : List Char) : Bool :=
  wildMatchF (p.length + s.length + 1) p s

/-- Scanner for glob well-formedness: a pattern is malformed when a `[`
character class is left unclosed (the way `GitignoreBuilder::add_line`
reports a pattern error). -/
def scanB : Bool → List Char → Bool
  | inside, [] => !inside
  | false, '[' :: r => scanB true r
  | true, ']' :: r => scanB false r
  | inside, _ :: r => scanB inside r

/-- A glob pattern is well-formed when its character classes are closed. -/
def globOk (s : String) : Bool := scanB false s.data

/-- One compiled gitignore rule: negation flag (leading `!`), directory-only
flag (trailing `/`), and the remaining glob text. -/
structure Rule where
  neg : Bool
  dirOnly : Bool
  pat : String
deriving DecidableEq, Repr

/-- Models `GitignoreBuilder::add_line` on one pattern line: blank lines and
`#` comments yield no rule, a leading `!` marks negation, a trailing `/`
marks a directory-only rule, and a malformed glob is an error carrying the
offending line. -/
def parseLine (line : String) : Except String (Option Rule) :=
  if line = "" then Except.ok none
  else if startsWithCh '#' line then Except.ok none
  else
    let neg := startsWithCh '!' line
    let s1 := if neg then line.drop 1 else line
    let dirOnly := endsWithCh '/' s1
    let s2 := if dirOnly then s1.dropRight 1 else s1
    if globOk s2 then Except.ok (some { neg := neg, dirOnly := dirOnly, pat := s2 })
    else Except.error line

/-- The error kinds of the pipeline (section 7 of the design): a missing
input path, a malformed exclusion pattern (PatternSyntaxError, carrying the
bad line), and a file whose content cannot be decoded as text. -/
inductive TError where
  | inputPathNotFound
  | patternErr (pat : String)
  | contentReadError
deriving DecidableEq, Repr

/-- The last component of a path, when it is a normal name. -/
def lastName (p : PathT) : Option FName :=
  match p.getLast? with
  | some (Comp.normal n) => some n
  | _ => none

/-- Whether a rule's glob hits a (root-relative) path: a pattern without `/`
matches the path's base name at any depth, a pattern containing `/` matches
the displayed relative path (gitignore semantics as implemented by
`Gitignore::matched`). -/
def globHits (pat : String) (rel : PathT) : Bool :=
  if pat.data.contains '/' then wildMatch pat.data (dispPath rel).data
  else
    match lastName rel with
    | some (FName.utf8 n) => wildMatch pat.data n.data
    | _ => false

/-- Whether a rule matches a path: directory-only rules match only
directories (`Gitignore::matched` receives `is_dir`). -/
def ruleMatch (r : Rule) (rel : PathT) (isDir : Bool) : Bool :=
  (!r.dirOnly || isDir) && globHits r.pat rel

/-- Models the matcher: the gitignore root and the compiled rule list, in the
order the builder received the lines. -/
structure ExcludeMatcher where
  root : PathT
  rules : List Rule
deriving DecidableEq, Repr

/-- The rule selected for a path: scanning the rules in order, a matching
rule overwrites the current verdict, so the last matching rule is kept
(gitignore last-match-wins precedence as in `Gitignore::matched`). -/
def matchedRule (rules : List Rule) (rel : PathT) (isDir : Bool) : Option Rule :=
  rules.foldl (fun acc r => if ruleMatch r rel isDir then some r else acc) none

/-- Models `ExcludeMatcher::is_excluded`: relativize the path against the
matcher root and ask whether the selected rule ignores it (a negated rule
whitelists, no rule means not excluded).  The `is_dir` filesystem query of
the source is the explicit `isDir` argument here. -/
def ExcludeMatcher.is_excluded (m : ExcludeMatcher) (path : PathT) (isDir : Bool) : Bool :=
  match matchedRule m.rules (stripPfx m.root path) isDir with
  | some r => !r.neg
  | none => false

/-- Models `ExcludeMatcher::add_ignore_file`: the `.treeclipignore` lines, if
the file exists.  The source discards the error returned by `builder.add`,
so malformed lines are dropped while well-formed ones are still compiled. -/
def addIgnoreFileRules (ignoreLines : Option (List String)) : List Rule :=
  match ignoreLines with
  | none => []
  | some ls => ls.filterMap (fun l =>
      match parseLine l with
      | Except.ok r => r
      | Except.error _ => none)

/-- Models `ExcludeMatcher::add_cli_patterns`: each CLI pattern goes through
`add_line` and the first malformed one aborts the build with a pattern
error. -/
def addCliRules : List String → Except TError (List Rule)
  | [] => Except.ok []
  | p :: ps =>
    match parseLine p with
    | Except.error e => Except.error (TError.patternErr e)
    | Except.ok none => addCliRules ps
    | Except.ok (some r) =>
      match addCliRules ps with
      | Except.error e => Except.error e
      | Except.ok rs => Except.ok (r :: rs)

/-- Models `ExcludeMatcher::new`: ignore-file rules first, then CLI rules, in
the order given. -/
def ExcludeMatcher.new (root : PathT) (ignoreLines : Option (List String))
    (cliPatterns : List String) : Except TError ExcludeMatcher :=
  match addCliRules cliPatterns with
  | Except.error e => Except.error e
  | Except.ok crs =>
    Except.ok { root := root, rules := addIgnoreFileRules ignoreLines ++ crs }

/-- Models `filter::is_hidden`: `file_name().to_str()` yields `none` for a
non-UTF-8 name, and `unwrap_or(false)` then reports the entry as not hidden;
a UTF-8 name is hidden when it starts with a dot.  The `verbose` parameter of
the source only prints and is omitted. -/
def is_hidden (fileName : FName) : Bool :=
  ((FName.to_str fileName).map (fun s => startsWithCh '.' s)).getD false

/-- A directory entry produced by the walk: its full path, its file name,
whether it is a directory, and (for files) its content, `none` when the
content cannot be decoded as text. -/
structure Entry where
  path : PathT
  name : FName
  isDir : Bool
  content : Option String
deriving DecidableEq, Repr

mutual
/-- A filesystem snapshot: a node is a file with content or a directory with
ordered children (the deterministic entry order of the walk). -/
inductive FsNode where
  | file (name : FName) (content : Option String)
  | dir (name : FName) (children : FsList)
/-- The ordered children of a directory. -/
inductive FsList where
  | nil
  | cons (hd : FsNode) (tl : FsList)
end

/-- Build an `FsList` from a plain list of nodes. -/
def fsList : List FsNode → FsList
  | [] => FsList.nil
  | n :: rest => FsList.cons n (fsList rest)

/-- The name of a node. -/
def FsNode.name : FsNode → FName
  | FsNode.file n _ => n
  | FsNode.dir n _ => n

/-- The names of a sibling list, in order. -/
def FsList.names : FsList → List FName
  | FsList.nil => []
  | FsList.cons n rest => n.name :: FsList.names rest

mutual
/-- The unfiltered depth-first walk of a list of sibling nodes below the
directory path `p` (`WalkDir` default order: a directory before its
contents). -/
def walkNodes (p : PathT) : FsList → List Entry
  | FsList.nil => []
  | FsList.cons n rest => walkNode p n ++ walkNodes p rest
/-- The unfiltered entries contributed by one node below path `p`. -/
def walkNode (p : PathT) : FsNode → List Entry
  | FsNode.file n c =>
    [{ path := p ++ [Comp.normal n], name := n, isDir := false, content := c }]
  | FsNode.dir n ch =>
    { path := p ++ [Comp.normal n], name := n, isDir := true, content := none }
      :: walkNodes (p ++ [Comp.normal n]) ch
end

mutual
/-- The walk filtered by `filter_entry`: an entry failing the predicate is
skipped and, for a directory, its subtree is not descended into. -/
def walkNodesF (pred : Entry → Bool) (p : PathT) : FsList → List Entry
  | FsList.nil => []
  | FsList.cons n rest => walkNodeF pred p n ++ walkNodesF pred p rest
/-- The filtered entries contributed by one node below path `p`. -/
def walkNodeF (pred : Entry → Bool) (p : PathT) : FsNode → List Entry
  | FsNode.file n c =>
    if pred { path := p ++ [Comp.normal n], name := n, isDir := false, content := c }
    then [{ path := p ++ [Comp.normal n], name := n, isDir := false, content := c }]
    else []
  | FsNode.dir n ch =>
    if pred { path := p ++ [Comp.normal n], name := n, isDir := true, content := none }
    then { path := p ++ [Comp.normal n], name := n, isDir := true, content := none }
      :: walkNodesF pred (p ++ [Comp.normal n]) ch
    else []
end

/-- `WalkDir::new(input)`: the root entry itself, then its contents. -/
def walkDir (input : PathT) : FsNode → List Entry
  | FsNode.file n c => [{ path := input, name := n, isDir := false, content := c }]
  | FsNode.dir n ch =>
    { path := input, name := n, isDir := true, content := none } :: walkNodes input ch

/-- `WalkDir::new(input).into_iter().filter_entry(pred)`: the predicate also
applies to the root entry. -/
def walkDirF (pred : Entry → Bool) (input : PathT) : FsNode → List Entry
  | FsNode.file n c =>
    if pred { path := input, name := n, isDir := false, content := c }
    then [{ path := input, name := n, isDir := false, content := c }]
    else []
  | FsNode.dir n ch =>
    if pred { path := input, name := n, isDir := true, content := none }
    then { path := input, name := n, isDir := true, content := none }
      :: walkNodesF pred input ch
    else []

/-- The `filter_entry` closure of `Walker::traverse`:
`!excluded && (!skip_hidden || !is_hidden(entry))`. -/
def walkerPred (m : ExcludeMatcher) (skipHidden : Bool) (e : Entry) : Bool :=
  let excluded := m.is_excluded e.path e.isDir
  let nonHiddenPath := !skipHidden || !is_hidden e.name
  !excluded && nonHiddenPath

/-- The `Walker` configuration (`Walker::new`). -/
structure Walker where
  root : PathT
  input : PathT
  output : PathT
  exclude_patterns : List String
deriving DecidableEq, Repr

/-- The header line of one record. -/
def headerLine (w : Walker) (e : Entry) : String :=
  "==> " ++ dispPath (stripPfx w.root e.path) ++ "\n"

/-- One full record: header line, trimmed content, one newline. -/
def recordStr (w : Walker) (e : Entry) : String :=
  headerLine w e ++ trimEnd (e.content.getD "") ++ "\n"

/-- Models `Walker::write_file_content` for one entry: the separating blank
line when not first, the `==> ` header with the root-stripped path, then the
trimmed content and one newline.  Returns the chunk actually written and the
result; when the content cannot be read as text only the header part has
been written and a content read error is reported. -/
def write_file_content (w : Walker) (e : Entry) (first : Bool) :
    String × Except TError Unit :=
  let hdr := (if first then "" else "\n") ++ headerLine w e
  match e.content with
  | none => (hdr, Except.error TError.contentReadError)
  | some c => (hdr ++ (trimEnd c ++ "\n"), Except.ok ())

/-- The loop of `Walker::traverse` over the filtered entries (the body of
`write_file_content` inlined): an entry whose path equals the output path
(literal `PathBuf` comparison) is skipped, directories are not written, and
each written file bumps `file_count`.  Returns the output-file content, the
final `file_count`, and the value the Rust function returns. -/
def travLoop (w : Walker) : List Entry → String → Nat → Bool →
    String × Nat × Except TError Unit
  | [], out, n, _ => (out, n, Except.ok ())
  | e :: rest, out, n, first =>
    if e.path = w.output then travLoop w rest out n first
    else if e.isDir then travLoop w rest out n first
    else
      match e.content with
      | none =>
        (out ++ ((if first then "" else "\n") ++ headerLine w e), n + 1,
         Except.error TError.contentReadError)
      | some c =>
        travLoop w rest
          (out ++ ((if first then "" else "\n")
            ++ (headerLine w e ++ (trimEnd c ++ "\n"))))
          (n + 1) false

/-- The observable outcome of `Walker::traverse`: the output-file content
(`none` when the output file was never created), the final internal
`file_count`, and the function's return value. -/
structure TravOut where
  out : Option String
  count : Nat
  ret : Except TError Unit
deriving Repr

/-- Models `Walker::traverse`: build the matcher (a pattern error aborts
before the output file is opened), open the output file (create/truncate, so
its content starts empty), then walk with `filter_entry` and write each
surviving file. -/
def Walker.traverse (w : Walker) (skipHidden : Bool)
    (ignoreLines : Option (List String)) (t : FsNode) : TravOut :=
  match ExcludeMatcher.new w.root ignoreLines w.exclude_patterns with
  | Except.error e => { out := none, count := 0, ret := Except.error e }
  | Except.ok m =>
    let entries := walkDirF (walkerPred m skipHidden) w.input t
    let (s, n, r) := travLoop w entries "" 0 true
    { out := some s, count := n, ret := r }

/-- Models `Walker::process_dir`: `utils::validate_path_exists` runs first,
so a missing input path (`t = none`) aborts before `traverse` and before the
output destination is opened or truncated (output content `none`). -/
def Walker.process_dir (w : Walker) (skipHidden : Bool)
    (ignoreLines : Option (List String)) (t : Option FsNode) :
    Option String × Except TError Unit :=
  match t with
  | none => (none, Except.error TError.inputPathNotFound)
  | some tree =>
    let r := w.traverse skipHidden ignoreLines tree
    (r.out, r.ret)

/-- The entries the loop actually writes: surviving entries that are files
and whose path is not (literally) the output path. -/
def filesOf (w : Walker) (es : List Entry) : List Entry :=
  es.filter (fun e => if e.path = w.output then false else !e.isDir)

/-- The aggregated files of a run: the filtered walk, restricted to written
files. -/
def aggEntries (w : Walker) (m : ExcludeMatcher) (skipHidden : Bool) (t : FsNode) :
    List Entry :=
  filesOf w (walkDirF (walkerPred m skipHidden) w.input t)

/-- Join strings with a single newline separator between consecutive
elements. -/
def joinNl : List String → String
  | [] => ""
  | [s] => s
  | s :: rest => s ++ "\n" ++ joinNl rest

/-- The text the loop appends for a tail of records, each preceded by its
separator newline. -/
def tailChunk (w : Walker) : List Entry → String
  | [] => ""
  | f :: rest => "\n" ++ recordStr w f ++ tailChunk w rest

/-- The text the loop appends for a list of records, given whether the first
of them is the first record of the whole run. -/
def chunk (w : Walker) (first : Bool) (fs : List Entry) : String :=
  match first, fs with
  | _, [] => ""
  | true, f :: rest => recordStr w f ++ tailChunk w rest
  | false, fs' => tailChunk w fs'

/-- Split a character list at every newline (the lines of a text, with one
trailing empty segment when the text ends in a newline). -/
def splitNl : List Char → List (List Char)
  | [] => [[]]
  | c :: rest =>
    if c = '\n' then [] :: splitNl rest
    else
      match splitNl rest with
      | [] => [[c]]
      | l :: ls => (c :: l) :: ls

/-- Count the occurrences of a nonempty pattern in a character list. -/
def countOcc (pat : List Char) : List Char → Nat
  | [] => 0
  | c :: rest => (cond (isPfx pat (c :: rest)) 1 0) + countOcc pat rest

/-- The header marker characters. -/
def hdrPat : List Char := ['=', '=', '>', ' ']

/-- The number of blank text lines of a string (the trailing segment after a
final newline is not a text line). -/
def countBlank (s : String) : Nat :=
  ((splitNl s.data).dropLast.countP (fun l => l.isEmpty))

/-- Boolean distinctness of a name list (sibling names in one directory are
distinct on a real filesystem). -/
def nodupB : List FName → Bool
  | [] => true
  | x :: xs => !(xs.contains x) && nodupB xs

mutual
/-- Well-formedness of sibling lists: every member is a well-formed node. -/
def wfChildren : FsList → Bool
  | FsList.nil => true
  | FsList.cons n rest => wfNode n && wfChildren rest
/-- Well-formedness of a node: inside every directory the sibling names are
distinct (as on a real filesystem), recursively. -/
def wfNode : FsNode → Bool
  | FsNode.file _ _ => true
  | FsNode.dir _ ch => nodupB (FsList.names ch) && wfChildren ch
end

/-- Well-formedness of a whole tree. -/
def wfTreeTop (t : FsNode) : Bool := wfNode t

/-- A record is tidy when its header path has no newline and neither the
path nor the trimmed content contains the header marker or a blank line;
the spec's counting invariants hold for tidy records. -/
def tidy (w : Walker) (e : Entry) : Bool :=
  let relp := dispPath (stripPfx w.root e.path)
  let body := trimEnd (e.content.getD "")
  !(relp.data.contains '\n')
    && decide (countOcc hdrPat relp.data = 0)
    && decide (countOcc hdrPat body.data = 0)
    && !((splitNl body.data).contains [])

/-! Concrete run configurations used to exercise the model. -/

/-- A sample absolute root `/proj`. -/
def exRootP : PathT := [Comp.rootDir, Comp.normal (FName.utf8 "proj")]

/-- The output destination spelled relatively, as `run::execute` produces by
default (`./treeclip_temp.txt` style): here `./out.txt`. -/
def exOutRel : PathT := [Comp.curDir, Comp.normal (FName.utf8 "out.txt")]

/-- A walker whose input is absolute and whose output is the relative
spelling of a file inside the input tree. -/
def exW1 : Walker :=
  { root := exRootP, input := exRootP, output := exOutRel, exclude_patterns := [] }

/-- The `/proj` tree for the self-inclusion scenario: a regular file and the
in-progress output file `/proj/out.txt`. -/
def exT1 : FsNode :=
  FsNode.dir (FName.utf8 "proj") (fsList
    [FsNode.file (FName.utf8 "a.txt") (some "hello"),
     FsNode.file (FName.utf8 "out.txt") (some "PARTIAL")])

/-- An output destination outside the walked tree. -/
def exOutO : PathT := [Comp.curDir, Comp.normal (FName.utf8 "o")]

/-- A walker with no exclusion patterns and an output outside the tree. -/
def exW4 : Walker :=
  { root := exRootP, input := exRootP, output := exOutO, exclude_patterns := [] }

/-- A tree with an empty file and a file whose content contains the header
marker. -/
def exT4 : FsNode :=
  FsNode.dir (FName.utf8 "proj") (fsList
    [FsNode.file (FName.utf8 "a.txt") (some ""),
     FsNode.file (FName.utf8 "b.txt") (some "==> x")])

/-- The output the pipeline produces on `exT4`. -/
def exStr4 : String := "==> a.txt\n\n\n==> b.txt\n==> x\n"

/-- A tree whose second file cannot be decoded as text. -/
def exT6 : FsNode :=
  FsNode.dir (FName.utf8 "proj") (fsList
    [FsNode.file (FName.utf8 "a.txt") (some "hi"),
     FsNode.file (FName.utf8 "bad.bin") none,
     FsNode.file (FName.utf8 "c.txt") (some "zz")])

/-- A tree with two tidy readable files. -/
def exT6x : FsNode :=
  FsNode.dir (FName.utf8 "proj") (fsList
    [FsNode.file (FName.utf8 "a.txt") (some "hello"),
     FsNode.file (FName.utf8 "b.txt") (some "world")])

/-- A tree with a single readable file. -/
def exT9 : FsNode :=
  FsNode.dir (FName.utf8 "proj") (fsList [FsNode.file (FName.utf8 "a.txt") (some "hi")])

/-- A tree with a hidden file and a subdirectory. -/
def exT3 : FsNode :=
  FsNode.dir (FName.utf8 "proj") (fsList
    [FsNode.file (FName.utf8 ".env") (some "S"),
     FsNode.file (FName.utf8 "visible.txt") (some "v"),
     FsNode.dir (FName.utf8 "sub") (fsList [FsNode.file (FName.utf8 "b.txt") (some "w")])])

/-- The matcher compiled from the single CLI pattern `sub` at root `/proj`. -/
def exMsub : ExcludeMatcher :=
  { root := exRootP, rules := [{ neg := false, dirOnly := false, pat := "sub" }] }

/-- The matcher with no rules at root `/proj`. -/
def exMnone : ExcludeMatcher := { root := exRootP, rules := [] }

/-- A walker excluding `sub` via the CLI pattern list. -/
def exWsub : Walker :=
  { root := exRootP, input := exRootP, output := exOutO, exclude_patterns := ["sub"] }

/-- The directory entry of `/proj/sub` as the walk sees it. -/
def exSubEntry : Entry :=
  { path := exRootP ++ [Comp.normal (FName.utf8 "sub")], name := FName.utf8 "sub",
    isDir := true, content := none }

/-- An entry whose file name is not valid UTF-8 (byte name `==> \xFF`,
displayed lossily as `==> �`). -/
def exBadNameEntry : Entry :=
  { path := exRootP ++ [Comp.normal (FName.nonUtf8 "==> �")], name := FName.nonUtf8 "==> �",
    isDir := false, content := some "x" }

/-! Helper lemmas. -/

/-- Appending the empty string is the identity. -/
theorem str_append_empty (s : String) : s ++ "" = s := by
  cases s
  show String.mk _ = _
  simp

/-- String append is associative. -/
theorem str_assoc (a b c : String) : a ++ b ++ c = a ++ (b ++ c) := by
  cases a; cases b; cases c
  show String.mk _ = String.mk _
  simp

/-- The head of a cons is the last element of the list when nothing follows. -/
theorem getLastQ_cons {α : Type} (a : α) (l : List α) :
    (a :: l).getLast? = (l.getLast?).or (some a) := by
  cases l with
  | nil => rfl
  | cons b t =>
    rw [List.getLast?_cons_cons]
    cases h : (b :: t).getLast? with
    | none => exact absurd (List.getLast?_eq_none_iff.mp h) (by simp)
    | some x => rfl

/-- The fold of `matchedRule`, started from any accumulator, selects the last
matching rule and falls back to the accumulator. -/
theorem matchedRule_foldl (rel : PathT) (d : Bool) (rules : List Rule)
    (acc : Option Rule) :
    rules.foldl (fun acc r => if ruleMatch r rel d then some r else acc) acc
      = ((rules.filter (fun r => ruleMatch r rel d)).getLast?).or acc := by
  induction rules generalizing acc with
  | nil => rfl
  | cons r rs ih =>
    rw [List.foldl_cons, ih]
    by_cases h : ruleMatch r rel d = true
    · have hf : List.filter (fun r => ruleMatch r rel d) (r :: rs)
          = r :: List.filter (fun r => ruleMatch r rel d) rs := by
        simp [List.filter_cons, h]
      rw [if_pos h, hf, getLastQ_cons]
      cases hl : (List.filter (fun r => ruleMatch r rel d) rs).getLast? <;>
        simp [Option.or]
    · have hf : List.filter (fun r => ruleMatch r rel d) (r :: rs)
          = List.filter (fun r => ruleMatch r rel d) rs := by
        simp [List.filter_cons, h]
      rw [if_neg h, hf]

/-- `matchedRule` is exactly the last matching rule of the list. -/
theorem matchedRule_eq_getLast (rules : List Rule) (rel : PathT) (d : Bool) :
    matchedRule rules rel d
      = (rules.filter (fun r => ruleMatch r rel d)).getLast? := by
  rw [matchedRule, matchedRule_foldl]
  cases h : (rules.filter (fun r => ruleMatch r rel d)).getLast? <;> simp [Option.or]

/-! Settled claims. -/

/-- C8: if the input subtree path does not exist, `process_dir` fails with
`InputPathNotFound` before traversal starts, and the output destination is
neither created nor truncated. -/
theorem c8_input_not_found (w : Walker) (skipHidden : Bool)
    (ignoreLines : Option (List String)) :
    Walker.process_dir w skipHidden ignoreLines none
      = (none, Except.error TError.inputPathNotFound) := rfl

/-- C10: an entry whose file name is not valid UTF-8 is classified as not
hidden by `is_hidden`, so even with `skip_hidden` enabled the hidden filter
never prunes it: the walk predicate reduces to the matcher decision alone. -/
theorem c10_invalid_name_not_hidden (m : ExcludeMatcher) (skipHidden : Bool)
    (e : Entry) (hname : FName.to_str e.name = none) :
    is_hidden e.name = false
      ∧ walkerPred m skipHidden e = !(m.is_excluded e.path e.isDir) := by
  constructor
  · rw [is_hidden, hname]; rfl
  · simp [walkerPred, is_hidden, hname]

/-- Witness for C10 at a concrete non-UTF-8-named entry. -/
theorem c10_witness :
    is_hidden exBadNameEntry.name = false
      ∧ walkerPred exMnone true exBadNameEntry
          = !(exMnone.is_excluded exBadNameEntry.path exBadNameEntry.isDir) :=
  c10_invalid_name_not_hidden exMnone true exBadNameEntry rfl

/-- C5: the header of an aggregated file strips the `Walker.root` components
when they are a prefix of the file path; otherwise the header falls back to
the file's own path. -/
theorem c5_header_path (w : Walker) (m : ExcludeMatcher) (skipHidden : Bool)
    (t : FsNode) (e : Entry) (_he : e ∈ aggEntries w m skipHidden t) :
    (isPfx w.root e.path = true →
      headerLine w e = "==> " ++ dispPath (e.path.drop w.root.length) ++ "\n")
    ∧ (isPfx w.root e.path = false →
      headerLine w e = "==> " ++ dispPath e.path ++ "\n") := by
  constructor <;> intro h <;> simp [headerLine, stripPfx, h]

/-- Witness for C5: the file `/proj/sub/b.txt` under root `/proj` gets the
header `==> sub/b.txt`. -/
theorem c5_witness :
    ((isPfx exW4.root (exRootP ++ [Comp.normal (FName.utf8 "sub"), Comp.normal (FName.utf8 "b.txt")]) = true)
      ∧ headerLine exW4
          { path := exRootP ++ [Comp.normal (FName.utf8 "sub"), Comp.normal (FName.utf8 "b.txt")],
            name := FName.utf8 "b.txt", isDir := false, content := some "w" }
        = "==> sub/b.txt\n") := by
  refine ⟨rfl, ?_⟩
  have h := c5_header_path exW4 exMnone false exT3
      { path := exRootP ++ [Comp.normal (FName.utf8 "sub"), Comp.normal (FName.utf8 "b.txt")],
        name := FName.utf8 "b.txt", isDir := false, content := some "w" }
      (by decide)
  rw [h.1 rfl]
  rfl

/-- C1 (code evaluated at the failing input): with the output destination
spelled relatively (`./out.txt`) while the walk produces absolute entry
paths, the literal path comparison of `Walker::traverse` never fires even
though both paths canonicalize to the same file `/proj/out.txt`; the
in-progress output file is aggregated into itself as a record. -/
theorem c1_output_self_inclusion :
    canonize exRootP exW1.output = exW1.input ++ [Comp.normal (FName.utf8 "out.txt")]
    ∧ (exW1.traverse false none exT1).out
        = some "==> a.txt\nhello\n\n==> out.txt\nPARTIAL\n"
    ∧ (exW1.traverse false none exT1).ret = Except.ok () :=
  ⟨rfl, rfl, rfl⟩

/-- C7 counterexample: the line `a[` is a malformed pattern, yet when it
comes from the root ignore file the matcher build succeeds, because
`add_ignore_file` discards the builder error. -/
theorem c7_cex :
    parseLine "a[" = Except.error "a["
    ∧ (ExcludeMatcher.new exRootP (some ["a["]) []).isOk = true :=
  ⟨rfl, rfl⟩

/-- The error value of `parseLine` is always the offending line itself. -/
theorem parseLine_error_eq {l e : String} (h : parseLine l = Except.error e) :
    e = l := by
  rw [parseLine] at h
  dsimp only at h
  repeat' split at h
  all_goals cases h
  all_goals rfl

/-- `addCliRules` succeeds exactly when every CLI pattern parses, and its
error is a pattern error naming a malformed CLI pattern. -/
theorem addCliRules_spec (cli : List String) :
    (addCliRules cli).isOk = cli.all (fun p => (parseLine p).isOk)
    ∧ (∀ er, addCliRules cli = Except.error er →
        ∃ p, p ∈ cli ∧ parseLine p = Except.error p ∧ er = TError.patternErr p) := by
  induction cli with
  | nil => exact ⟨rfl, by intro er h; cases h⟩
  | cons p ps ih =>
    constructor
    · cases hp : parseLine p with
      | error e =>
        simp [addCliRules, hp, List.all_cons, Except.isOk, Except.toBool]
      | ok r =>
        cases r with
        | none =>
          simpa [addCliRules, hp, List.all_cons, Except.isOk, Except.toBool]
            using ih.1
        | some rr =>
          cases h2 : addCliRules ps with
          | error e2 =>
            have h3 := ih.1
            rw [h2] at h3
            simp only [Except.isOk, Except.toBool] at h3
            simp [addCliRules, hp, h2, List.all_cons, Except.isOk, Except.toBool, ← h3]
          | ok rs2 =>
            have h3 := ih.1
            rw [h2] at h3
            simp only [Except.isOk, Except.toBool] at h3
            simp [addCliRules, hp, h2, List.all_cons, Except.isOk, Except.toBool, ← h3]
    · intro er her
      rw [addCliRules] at her
      cases hp : parseLine p with
      | error e =>
        rw [hp] at her
        have he : e = p := parseLine_error_eq hp
        injection her with hv
        exact ⟨p, List.mem_cons_self .., he ▸ hp, by rw [← hv, he]⟩
      | ok r =>
        rw [hp] at her
        cases r with
        | none =>
          rcases ih.2 er her with ⟨q, hq, h1, h2⟩
          exact ⟨q, List.mem_cons_of_mem _ hq, h1, h2⟩
        | some rr =>
          cases h2 : addCliRules ps with
          | error e2 =>
            rw [h2] at her
            injection her with hv
            rcases ih.2 e2 h2 with ⟨q, hq, ha, hb⟩
            exact ⟨q, List.mem_cons_of_mem _ hq, ha, hv ▸ hb⟩
          | ok rs2 =>
            rw [h2] at her
            cases her

/-- C7 (amended): the matcher build fails, with a pattern error, exactly when
some CLI pattern is malformed; malformed ignore-file lines never fail the
build. -/
theorem c7_cli_pattern_errors (root : PathT) (ignoreLines : Option (List String))
    (cli : List String) :
    (ExcludeMatcher.new root ignoreLines cli).isOk
        = cli.all (fun p => (parseLine p).isOk)
    ∧ (∀ er, ExcludeMatcher.new root ignoreLines cli = Except.error er →
        ∃ p, p ∈ cli ∧ parseLine p = Except.error p ∧ er = TError.patternErr p) := by
  constructor
  · rw [ExcludeMatcher.new]
    cases h : addCliRules cli with
    | error e =>
      have := (addCliRules_spec cli).1
      rw [h] at this
      simpa [Except.isOk, Except.toBool] using this
    | ok rs =>
      have := (addCliRules_spec cli).1
      rw [h] at this
      simpa [Except.isOk, Except.toBool] using this
  · intro er her
    rw [ExcludeMatcher.new] at her
    cases h : addCliRules cli with
    | error e =>
      rw [h] at her
      injection her with hv
      rcases (addCliRules_spec cli).2 e h with ⟨q, hq, ha, hb⟩
      exact ⟨q, hq, ha, hv ▸ hb⟩
    | ok rs => rw [h] at her; cases her

/-- Witness for C7 (amended) at a malformed CLI pattern. -/
theorem c7_witness :
    (ExcludeMatcher.new exRootP none ["a["]).isOk
        = (["a["].all (fun p => (parseLine p).isOk))
    ∧ ∃ p, p ∈ ["a["] ∧ parseLine p = Except.error p
        ∧ TError.patternErr "a[" = TError.patternErr p := by
  refine ⟨(c7_cli_pattern_errors exRootP none ["a["]).1, ?_⟩
  exact (c7_cli_pattern_errors exRootP none ["a["]).2 (TError.patternErr "a[") rfl

/-- C2: for every candidate path, the matcher built from ignore-file rules
followed by CLI patterns decides exclusion by gitignore precedence: the last
matching rule of the combined list determines the outcome (a negated rule
re-includes), directory-only rules never match non-directories, and a path
matched by no rule is not excluded. -/
theorem c2_last_match_wins (root : PathT) (ignoreLines : Option (List String))
    (cli : List String) (m : ExcludeMatcher)
    (hm : ExcludeMatcher.new root ignoreLines cli = Except.ok m)
    (p : PathT) (d : Bool) :
    (∃ cliRules, addCliRules cli = Except.ok cliRules
      ∧ m.rules = addIgnoreFileRules ignoreLines ++ cliRules) ∧
    m.is_excluded p d =
      (match (m.rules.filter (fun r => ruleMatch r (stripPfx root p) d)).getLast? with
       | some r => !r.neg
       | none => false) ∧
    (∀ r ∈ m.rules, r.dirOnly = true → d = false →
      ruleMatch r (stripPfx root p) d = false) := by
  rw [ExcludeMatcher.new] at hm
  cases hcli : addCliRules cli with
  | error e => rw [hcli] at hm; cases hm
  | ok crs =>
    rw [hcli] at hm
    injection hm with hm2
    subst hm2
    refine ⟨⟨crs, rfl, rfl⟩, ?_, ?_⟩
    · rw [ExcludeMatcher.is_excluded, matchedRule_eq_getLast]
    · intro r _ hdir hd
      subst hd
      simp [ruleMatch, hdir]

/-- Witness for C2: ignore-file rule `node_modules` plus CLI rule `target`,
queried at `/proj/target`. -/
theorem c2_witness :
    ((∃ cliRules, addCliRules ["target"] = Except.ok cliRules
      ∧ ({ root := exRootP,
           rules := [{ neg := false, dirOnly := false, pat := "node_modules" },
                     { neg := false, dirOnly := false, pat := "target" }] }
          : ExcludeMatcher).rules
        = addIgnoreFileRules (some ["node_modules"]) ++ cliRules) ∧
    ExcludeMatcher.is_excluded
        { root := exRootP,
          rules := [{ neg := false, dirOnly := false, pat := "node_modules" },
                    { neg := false, dirOnly := false, pat := "target" }] }
        (exRootP ++ [Comp.normal (FName.utf8 "target")]) true =
      (match (List.filter
            (fun r => ruleMatch r
              (stripPfx exRootP (exRootP ++ [Comp.normal (FName.utf8 "target")])) true)
            ({ root := exRootP,
               rules := [{ neg := false, dirOnly := false, pat := "node_modules" },
                         { neg := false, dirOnly := false, pat := "target" }] }
              : ExcludeMatcher).rules).getLast? with
       | some r => !r.neg
       | none => false) ∧
    (∀ r ∈ ({ root := exRootP,
              rules := [{ neg := false, dirOnly := false, pat := "node_modules" },
                        { neg := false, dirOnly := false, pat := "target" }] }
            : ExcludeMatcher).rules,
      r.dirOnly = true → true = false →
      ruleMatch r (stripPfx exRootP (exRootP ++ [Comp.normal (FName.utf8 "target")])) true
        = false)) :=
  c2_last_match_wins exRootP (some ["node_modules"]) ["target"] _ rfl
    (exRootP ++ [Comp.normal (FName.utf8 "target")]) true

/-! Walk lemmas for subtree pruning. -/

/-- Prefix test is invariant under a common leading segment. -/
theorem isPfx_append_cancel {α : Type} [DecidableEq α] (p a b : List α) :
    isPfx (p ++ a) (p ++ b) = isPfx a b := by
  induction p with
  | nil => rfl
  | cons x xs ih => simp [isPfx, ih]

/-- A boolean prefix is no longer than the list it prefixes. -/
theorem isPfx_le_length {α : Type} [DecidableEq α] (a : List α) :
    ∀ b, isPfx a b = true → a.length ≤ b.length := by
  induction a with
  | nil => intro b _; simp
  | cons x xs ih =>
    intro b h
    cases b with
    | nil => cases h
    | cons y ys =>
      by_cases hxy : x = y
      · rw [isPfx, if_pos hxy] at h
        simpa using ih ys h
      · rw [isPfx, if_neg hxy] at h
        cases h

/-- A boolean prefix forces equal heads. -/
theorem isPfx_head {α : Type} [DecidableEq α] {x y : α} {a b : List α}
    (h : isPfx (x :: a) (y :: b) = true) : x = y := by
  by_cases hxy : x = y
  · exact hxy
  · rw [isPfx, if_neg hxy] at h
    cases h

/-- Every entry of the unfiltered walk of a sibling list sits below one of
the sibling names. -/
theorem walkNodes_shape :
    ∀ (p : PathT) (l : FsList), ∀ e ∈ walkNodes p l,
      ∃ n s, n ∈ FsList.names l ∧ e.path = p ++ Comp.normal n :: s := by
  refine walkNodes.induct
    (fun p l => ∀ e ∈ walkNodes p l,
      ∃ n s, n ∈ FsList.names l ∧ e.path = p ++ Comp.normal n :: s)
    (fun p nd => ∀ e ∈ walkNode p nd,
      ∃ s, e.path = p ++ Comp.normal nd.name :: s)
    ?_ ?_ ?_ ?_
  · intro p n c e he
    rw [walkNode] at he
    rcases List.mem_singleton.mp he with rfl
    exact ⟨[], rfl⟩
  · intro p n ch ih e he
    rw [walkNode] at he
    rcases List.mem_cons.mp he with rfl | he2
    · exact ⟨[], rfl⟩
    · rcases ih e he2 with ⟨k, s, _, hpath⟩
      exact ⟨Comp.normal k :: s, by simpa [List.append_assoc] using hpath⟩
  · intro p e he
    rw [walkNodes] at he
    cases he
  · intro p n rest ih2 ih1 e he
    rw [walkNodes] at he
    rcases List.mem_append.mp he with he2 | he1
    · rcases ih2 e he2 with ⟨s, hpath⟩
      exact ⟨n.name, s, List.mem_cons_self .., hpath⟩
    · rcases ih1 e he1 with ⟨k, s, hk, hpath⟩
      exact ⟨k, s, List.mem_cons_of_mem _ hk, hpath⟩

/-- Every entry of the unfiltered walk of one node sits below the node's
name. -/
theorem walkNode_shape (p : PathT) (nd : FsNode) :
    ∀ e ∈ walkNode p nd, ∃ s, e.path = p ++ Comp.normal nd.name :: s := by
  cases nd with
  | file n c =>
    intro e he
    rw [walkNode] at he
    rcases List.mem_singleton.mp he with rfl
    exact ⟨[], rfl⟩
  | dir n ch =>
    intro e he
    rw [walkNode] at he
    rcases List.mem_cons.mp he with rfl | he2
    · exact ⟨[], rfl⟩
    · rcases walkNodes_shape _ ch e he2 with ⟨k, s, _, hpath⟩
      exact ⟨Comp.normal k :: s, by simpa [List.append_assoc] using hpath⟩

/-- A filtered-walk entry satisfies the predicate and occurs in the
unfiltered walk. -/
theorem walkNodesF_sub (pred : Entry → Bool) :
    ∀ (p : PathT) (l : FsList), ∀ e ∈ walkNodesF pred p l,
      pred e = true ∧ e ∈ walkNodes p l := by
  refine walkNodesF.induct pred
    (fun p l => ∀ e ∈ walkNodesF pred p l, pred e = true ∧ e ∈ walkNodes p l)
    (fun p nd => ∀ e ∈ walkNodeF pred p nd, pred e = true ∧ e ∈ walkNode p nd)
    ?_ ?_ ?_ ?_ ?_ ?_
  · -- file node, predicate holds
    intro p n c hp e he
    rw [walkNodeF, if_pos hp] at he
    rcases List.mem_singleton.mp he with rfl
    refine ⟨hp, ?_⟩
    rw [walkNode]
    exact List.mem_singleton.mpr rfl
  · -- file node, predicate fails
    intro p n c hp e he
    rw [walkNodeF, if_neg hp] at he
    cases he
  · -- dir node, predicate holds
    intro p n ch hp ih e he
    rw [walkNodeF, if_pos hp] at he
    rcases List.mem_cons.mp he with rfl | he2
    · refine ⟨hp, ?_⟩
      rw [walkNode]
      exact List.mem_cons_self ..
    · rcases ih e he2 with ⟨hpe, hm⟩
      refine ⟨hpe, ?_⟩
      rw [walkNode]
      exact List.mem_cons_of_mem _ hm
  · -- dir node, predicate fails
    intro p n ch hp e he
    rw [walkNodeF, if_neg hp] at he
    cases he
  · -- empty sibling list
    intro p e he
    rw [walkNodesF] at he
    cases he
  · -- sibling cons
    intro p n rest ih2 ih1 e he
    rw [walkNodesF] at he
    rcases List.mem_append.mp he with he2 | he1
    · rcases ih2 e he2 with ⟨hp, hm⟩
      exact ⟨hp, by rw [walkNodes]; exact List.mem_append.mpr (Or.inl hm)⟩
    · rcases ih1 e he1 with ⟨hp, hm⟩
      exact ⟨hp, by rw [walkNodes]; exact List.mem_append.mpr (Or.inr hm)⟩

/-- A filtered-walk entry of one node satisfies the predicate and occurs in
the node's unfiltered walk. -/
theorem walkNodeF_sub (pred : Entry → Bool) (p : PathT) (nd : FsNode) :
    ∀ e ∈ walkNodeF pred p nd, pred e = true ∧ e ∈ walkNode p nd := by
  intro e he
  have h0 : e ∈ walkNodesF pred p (FsList.cons nd FsList.nil) := by
    rw [walkNodesF, walkNodesF]
    simpa using he
  have h1 := walkNodesF_sub pred p (FsList.cons nd FsList.nil) e h0
  rw [walkNodes, walkNodes] at h1
  exact ⟨h1.1, by simpa using h1.2⟩

/-- Subtree pruning inside one sibling list: a walked entry on which the
predicate fails is never a path prefix of any filtered-walk entry, provided
sibling names are distinct. -/
theorem pruned_below (pred : Entry → Bool) :
    ∀ (p : PathT) (l : FsList),
      nodupB (FsList.names l) = true → wfChildren l = true →
      ∀ e ∈ walkNodes p l, pred e = false →
      ∀ e' ∈ walkNodesF pred p l, isPfx e.path e'.path = false := by
  refine walkNodesF.induct pred
    (fun p l => nodupB (FsList.names l) = true → wfChildren l = true →
      ∀ e ∈ walkNodes p l, pred e = false →
      ∀ e' ∈ walkNodesF pred p l, isPfx e.path e'.path = false)
    (fun p nd => wfNode nd = true →
      ∀ e ∈ walkNode p nd, pred e = false →
      ∀ e' ∈ walkNodeF pred p nd, isPfx e.path e'.path = false)
    ?_ ?_ ?_ ?_ ?_ ?_
  · -- file node, predicate holds: the pruned e cannot be this entry
    intro p n c hp _ e he hpe e' he'
    rw [walkNode] at he
    rcases List.mem_singleton.mp he with rfl
    rw [hpe] at hp
    cases hp
  · -- file node, predicate fails: nothing survives
    intro p n c hp _ e he hpe e' he'
    rw [walkNodeF, if_neg hp] at he'
    cases he'
  · -- dir node, predicate holds
    intro p n ch hp ih hwf e he hpe e' he'
    rw [wfNode, Bool.and_eq_true] at hwf
    rw [walkNode] at he
    rw [walkNodeF, if_pos hp] at he'
    rcases List.mem_cons.mp he with rfl | he2
    · rw [hpe] at hp
      cases hp
    · rcases List.mem_cons.mp he' with rfl | he'2
      · rcases walkNodes_shape _ ch e he2 with ⟨k, s, _, hpath⟩
        cases hb : isPfx e.path
            ({ path := p ++ [Comp.normal n], name := n, isDir := true,
               content := none } : Entry).path with
        | false => rfl
        | true =>
          have hlen := isPfx_le_length _ _ hb
          rw [hpath] at hlen
          simp [List.length_append] at hlen
      · exact ih hwf.1 hwf.2 e he2 hpe e' he'2
  · -- dir node, predicate fails: nothing survives
    intro p n ch hp _ e he hpe e' he'
    rw [walkNodeF, if_neg hp] at he'
    cases he'
  · -- empty sibling list
    intro p _ _ e he
    rw [walkNodes] at he
    cases he
  · -- sibling cons
    intro p n rest ih2 ih1 hnd hwf e he hpe e' he'
    rw [FsList.names, nodupB, Bool.and_eq_true] at hnd
    rw [wfChildren, Bool.and_eq_true] at hwf
    rw [walkNodes] at he
    rw [walkNodesF] at he'
    have hnotin : n.name ∉ FsList.names rest := by
      intro hmem
      have hcont : (FsList.names rest).contains n.name = true :=
        List.elem_iff.mpr hmem
      rw [hcont] at hnd
      simp at hnd
    rcases List.mem_append.mp he with he2 | he1
    · rcases List.mem_append.mp he' with he'2 | he'1
      · exact ih2 hwf.1 e he2 hpe e' he'2
      · rcases walkNode_shape p n e he2 with ⟨s, hpath⟩
        have he'w := (walkNodesF_sub pred p rest e' he'1).2
        rcases walkNodes_shape p rest e' he'w with ⟨k, s', hk, hpath'⟩
        cases hb : isPfx e.path e'.path with
        | false => rfl
        | true =>
          rw [hpath, hpath', isPfx_append_cancel] at hb
          have hhead := isPfx_head hb
          injection hhead with hnk
          exact absurd (hnk ▸ hk) hnotin
    · rcases List.mem_append.mp he' with he'2 | he'1
      · rcases walkNodes_shape p rest e he1 with ⟨k, s, hk, hpath⟩
        rcases walkNode_shape p n e' (walkNodeF_sub pred p n e' he'2).2
          with ⟨s', hpath'⟩
        cases hb : isPfx e.path e'.path with
        | false => rfl
        | true =>
          rw [hpath, hpath', isPfx_append_cancel] at hb
          have hhead := isPfx_head hb
          injection hhead with hnk
          exact absurd (hnk.symm ▸ hk) hnotin
      · exact ih1 hnd.2 hwf.2 e he1 hpe e' he'1

/-- C3: an entry that the matcher excludes, or (with `skip_hidden`) whose
name starts with a dot, is pruned together with its whole subtree: neither
it nor any descendant is ever yielded by the filtered walk, and no file at
or under it is among the aggregated entries. -/
theorem c3_pruned_subtree (w : Walker) (skipHidden : Bool) (t : FsNode)
    (m : ExcludeMatcher) (hwf : wfTreeTop t = true)
    (e : Entry) (he : e ∈ walkDir w.input t)
    (hpr : m.is_excluded e.path e.isDir = true
      ∨ (skipHidden = true ∧ is_hidden e.name = true)) :
    (∀ e' ∈ walkDirF (walkerPred m skipHidden) w.input t,
      isPfx e.path e'.path = false) ∧
    (∀ f ∈ aggEntries w m skipHidden t, isPfx e.path f.path = false) := by
  have hpe : walkerPred m skipHidden e = false := by
    rcases hpr with hx | ⟨hs, hh⟩
    · simp [walkerPred, hx]
    · simp [walkerPred, hs, hh]
  have main : ∀ e' ∈ walkDirF (walkerPred m skipHidden) w.input t,
      isPfx e.path e'.path = false := by
    cases t with
    | file n c =>
      intro e' he'
      rw [walkDir] at he
      rcases List.mem_singleton.mp he with rfl
      rw [walkDirF, if_neg (by rw [hpe]; simp)] at he'
      cases he'
    | dir n ch =>
      rw [walkDir] at he
      rw [wfTreeTop, wfNode, Bool.and_eq_true] at hwf
      intro e' he'
      rw [walkDirF] at he'
      rcases List.mem_cons.mp he with rfl | he2
      · rw [if_neg (by rw [hpe]; simp)] at he'
        cases he'
      · by_cases hp0 : walkerPred m skipHidden
            { path := w.input, name := n, isDir := true, content := none } = true
        · rw [if_pos hp0] at he'
          rcases List.mem_cons.mp he' with rfl | he'2
          · rcases walkNodes_shape w.input ch e he2 with ⟨k, s, _, hpath⟩
            cases hb : isPfx e.path
                ({ path := w.input, name := n, isDir := true,
                   content := none } : Entry).path with
            | false => rfl
            | true =>
              have hlen := isPfx_le_length _ _ hb
              rw [hpath] at hlen
              simp [List.length_append] at hlen
          · exact pruned_below (walkerPred m skipHidden) w.input ch
              hwf.1 hwf.2 e he2 hpe e' he'2
        · rw [if_neg hp0] at he'
          cases he'
  refine ⟨main, ?_⟩
  intro f hf
  rw [aggEntries, filesOf] at hf
  exact main f (List.mem_filter.mp hf).1

/-- Witness for C3: the directory `/proj/sub`, excluded by the CLI pattern
`sub`, is pruned with its file `b.txt`. -/
theorem c3_witness :
    (∀ e' ∈ walkDirF (walkerPred exMsub false) exWsub.input exT3,
      isPfx exSubEntry.path e'.path = false) ∧
    (∀ f ∈ aggEntries exWsub exMsub false exT3,
      isPfx exSubEntry.path f.path = false) :=
  c3_pruned_subtree exWsub false exT3 exMsub (by decide) exSubEntry (by decide)
    (Or.inl (by decide))

/-! Lemmas about the aggregation loop. -/

/-- The empty string is a left identity of append. -/
theorem str_empty_append (s : String) : "" ++ s = s := by
  cases s
  rfl

/-- The loop on an empty entry list. -/
theorem travLoop_nil (w : Walker) (out : String) (n : Nat) (first : Bool) :
    travLoop w [] out n first = (out, n, Except.ok ()) := rfl

/-- The loop skips an entry whose path equals the output path. -/
theorem travLoop_skip_out (w : Walker) (e : Entry) (rest : List Entry)
    (out : String) (n : Nat) (first : Bool) (h : e.path = w.output) :
    travLoop w (e :: rest) out n first = travLoop w rest out n first := by
  rw [travLoop, if_pos h]

/-- The loop does not write directories. -/
theorem travLoop_skip_dir (w : Walker) (e : Entry) (rest : List Entry)
    (out : String) (n : Nat) (first : Bool)
    (h1 : ¬ e.path = w.output) (h2 : e.isDir = true) :
    travLoop w (e :: rest) out n first = travLoop w rest out n first := by
  rw [travLoop, if_neg h1, if_pos h2]

/-- The loop aborts on an unreadable file, having written its header. -/
theorem travLoop_step_bad (w : Walker) (e : Entry) (rest : List Entry)
    (out : String) (n : Nat) (first : Bool)
    (h1 : ¬ e.path = w.output) (h2 : e.isDir = false) (hc : e.content = none) :
    travLoop w (e :: rest) out n first
      = (out ++ ((if first then "" else "\n") ++ headerLine w e), n + 1,
         Except.error TError.contentReadError) := by
  rw [travLoop, if_neg h1, if_neg (by simp [h2]), hc]

/-- The loop writes a readable file's record and continues with `first`
cleared. -/
theorem travLoop_step_ok (w : Walker) (e : Entry) (rest : List Entry)
    (out : String) (n : Nat) (first : Bool) (c : String)
    (h1 : ¬ e.path = w.output) (h2 : e.isDir = false) (hc : e.content = some c) :
    travLoop w (e :: rest) out n first
      = travLoop w rest
          (out ++ ((if first then "" else "\n")
            ++ (headerLine w e ++ (trimEnd c ++ "\n")))) (n + 1) false := by
  rw [travLoop, if_neg h1, if_neg (by simp [h2]), hc]

/-- `filesOf` on the empty list. -/
theorem filesOf_nil (w : Walker) : filesOf w [] = [] := rfl

/-- `filesOf` drops an entry at the output path. -/
theorem filesOf_cons_out (w : Walker) (e : Entry) (es : List Entry)
    (h : e.path = w.output) : filesOf w (e :: es) = filesOf w es := by
  simp [filesOf, List.filter_cons, h]

/-- `filesOf` drops directories. -/
theorem filesOf_cons_dir (w : Walker) (e : Entry) (es : List Entry)
    (h1 : ¬ e.path = w.output) (h2 : e.isDir = true) :
    filesOf w (e :: es) = filesOf w es := by
  simp [filesOf, List.filter_cons, h1, h2]

/-- `filesOf` keeps a file not at the output path. -/
theorem filesOf_cons_file (w : Walker) (e : Entry) (es : List Entry)
    (h1 : ¬ e.path = w.output) (h2 : e.isDir = false) :
    filesOf w (e :: es) = e :: filesOf w es := by
  simp [filesOf, List.filter_cons, h1, h2]

/-- `chunk` of the empty record list. -/
theorem chunk_nil (w : Walker) (first : Bool) : chunk w first [] = "" := by
  cases first <;> rfl

/-- A non-first chunk is the tail chunk. -/
theorem chunk_false (w : Walker) (fs : List Entry) :
    chunk w false fs = tailChunk w fs := by
  cases fs <;> rfl

/-- Unfolding one record of a chunk. -/
theorem chunk_cons (w : Walker) (first : Bool) (e : Entry) (fs : List Entry) :
    chunk w first (e :: fs)
      = (if first then "" else "\n") ++ (recordStr w e ++ tailChunk w fs) := by
  cases first
  · simp [chunk, tailChunk, str_assoc]
  · simp [chunk, str_empty_append]

/-- The loop writes exactly the records of the surviving files, in order,
when every surviving file is readable. -/
theorem travLoop_all_ok (w : Walker) (es : List Entry) :
    ∀ (acc : String) (n : Nat) (first : Bool),
      (∀ e ∈ filesOf w es, e.content.isSome = true) →
      travLoop w es acc n first
        = (acc ++ chunk w first (filesOf w es),
           n + (filesOf w es).length, Except.ok ()) := by
  induction es with
  | nil =>
    intro acc n first _
    rw [travLoop_nil, filesOf_nil, chunk_nil, str_append_empty]
    simp
  | cons e es ih =>
    intro acc n first h
    by_cases hout : e.path = w.output
    · rw [travLoop_skip_out _ _ _ _ _ _ hout, filesOf_cons_out _ _ _ hout]
      exact ih acc n first
        (fun x hx => h x (by rw [filesOf_cons_out _ _ _ hout]; exact hx))
    · by_cases hdir : e.isDir = true
      · rw [travLoop_skip_dir _ _ _ _ _ _ hout hdir, filesOf_cons_dir _ _ _ hout hdir]
        exact ih acc n first
          (fun x hx => h x (by rw [filesOf_cons_dir _ _ _ hout hdir]; exact hx))
      · have hdir' : e.isDir = false := by
          cases hd : e.isDir
          · rfl
          · exact absurd hd hdir
        have hf : filesOf w (e :: es) = e :: filesOf w es :=
          filesOf_cons_file _ _ _ hout hdir'
        have hmem : e ∈ filesOf w (e :: es) := by
          rw [hf]; exact List.mem_cons_self ..
        rcases Option.isSome_iff_exists.mp (h e hmem) with ⟨c, hc⟩
        rw [travLoop_step_ok _ _ _ _ _ _ _ hout hdir' hc]
        rw [ih _ _ _ (fun x hx => h x (by rw [hf]; exact List.mem_cons_of_mem _ hx))]
        rw [hf, chunk_cons]
        simp only [Prod.mk.injEq]
        refine ⟨?_, ?_, trivial⟩
        · rw [chunk_false]
          simp [recordStr, hc, str_assoc]
        · simp only [List.length_cons]
          omega

/-- When the first unreadable surviving file is `bad`, the loop aborts with a
content read error, having written the complete records of the preceding
files and the complete header line of `bad`. -/
theorem travLoop_first_bad (w : Walker) (es : List Entry) :
    ∀ (acc : String) (n : Nat) (first : Bool) (good : List Entry) (bad : Entry)
      (rest : List Entry),
      filesOf w es = good ++ bad :: rest →
      (∀ e ∈ good, e.content.isSome = true) →
      bad.content = none →
      travLoop w es acc n first
        = (acc ++ (chunk w first good
            ++ ((if first && good.isEmpty then "" else "\n") ++ headerLine w bad)),
           n + good.length + 1, Except.error TError.contentReadError) := by
  induction es with
  | nil =>
    intro acc n first good bad rest hsplit _ _
    rw [filesOf_nil] at hsplit
    cases good <;> cases hsplit
  | cons e es ih =>
    intro acc n first good bad rest hsplit hgood hbad
    by_cases hout : e.path = w.output
    · rw [filesOf_cons_out _ _ _ hout] at hsplit
      rw [travLoop_skip_out _ _ _ _ _ _ hout]
      exact ih acc n first good bad rest hsplit hgood hbad
    · by_cases hdir : e.isDir = true
      · rw [filesOf_cons_dir _ _ _ hout hdir] at hsplit
        rw [travLoop_skip_dir _ _ _ _ _ _ hout hdir]
        exact ih acc n first good bad rest hsplit hgood hbad
      · have hdir' : e.isDir = false := by
          cases hd : e.isDir
          · rfl
          · exact absurd hd hdir
        rw [filesOf_cons_file _ _ _ hout hdir'] at hsplit
        cases good with
        | nil =>
          rw [List.nil_append] at hsplit
          injection hsplit with hb hr
          subst hb
          rw [travLoop_step_bad _ _ _ _ _ _ hout hdir' hbad]
          simp [chunk_nil, str_empty_append, str_assoc]
        | cons g good2 =>
          rw [List.cons_append] at hsplit
          injection hsplit with hg hrest
          subst hg
          have hcg : e.content.isSome = true := hgood e (List.mem_cons_self ..)
          rcases Option.isSome_iff_exists.mp hcg with ⟨c, hc⟩
          rw [travLoop_step_ok _ _ _ _ _ _ _ hout hdir' hc]
          rw [ih _ _ _ good2 bad rest hrest
            (fun x hx => hgood x (List.mem_cons_of_mem _ hx)) hbad]
          simp only [Prod.mk.injEq]
          refine ⟨?_, ?_, trivial⟩
          · rw [chunk_cons, chunk_false]
            simp [recordStr, hc, str_assoc]
          · simp only [List.length_cons]
            omega

/-- Prepending a string to a tail chunk forms the newline join. -/
theorem append_tailChunk (w : Walker) :
    ∀ (fs : List Entry) (s : String),
      s ++ tailChunk w fs = joinNl (s :: fs.map (recordStr w)) := by
  intro fs
  induction fs with
  | nil => intro s; simp [tailChunk, joinNl, str_append_empty]
  | cons f fs ih =>
    intro s
    rw [tailChunk, List.map_cons]
    show _ = s ++ "\n" ++ joinNl (recordStr w f :: List.map (recordStr w) fs)
    rw [← ih (recordStr w f)]
    simp [str_assoc]

/-- A first chunk is the newline join of its records. -/
theorem chunk_true_joinNl (w : Walker) (fs : List Entry) :
    chunk w true fs = joinNl (fs.map (recordStr w)) := by
  cases fs with
  | nil => rfl
  | cons f fs => rw [chunk, List.map_cons, ← append_tailChunk]

/-- Prepending a string to a tail chunk followed by a final line forms the
newline join with that line at the end. -/
theorem append_tail_concat (w : Walker) (x : String) :
    ∀ (fs : List Entry) (s : String),
      s ++ (tailChunk w fs ++ ("\n" ++ x))
        = joinNl (s :: (fs.map (recordStr w) ++ [x])) := by
  intro fs
  induction fs with
  | nil =>
    intro s
    rw [tailChunk, List.map_nil, List.nil_append]
    show _ = s ++ "\n" ++ joinNl [x]
    simp [joinNl, str_empty_append, str_assoc]
  | cons f fs ih =>
    intro s
    rw [tailChunk, List.map_cons, List.cons_append]
    show _ = s ++ "\n" ++ joinNl (recordStr w f :: (List.map (recordStr w) fs ++ [x]))
    rw [← ih (recordStr w f)]
    simp [str_assoc]

/-- A first chunk followed by its separator and a final line is the newline
join of the records with that line at the end. -/
theorem chunk_true_concat (w : Walker) (good : List Entry) (x : String) :
    chunk w true good ++ ((if good.isEmpty then "" else "\n") ++ x)
      = joinNl (good.map (recordStr w) ++ [x]) := by
  cases good with
  | nil =>
    rw [chunk_nil, List.map_nil, List.nil_append, joinNl]
    simp [str_empty_append]
  | cons g gs =>
    rw [chunk, List.map_cons, List.cons_append]
    rw [← append_tail_concat w x gs (recordStr w g)]
    simp [str_assoc]

/-- Evaluating `Walker::traverse` through a computed loop result. -/
theorem traverse_eval (w : Walker) (skipHidden : Bool)
    (iL : Option (List String)) (t : FsNode) (m : ExcludeMatcher)
    (hm : ExcludeMatcher.new w.root iL w.exclude_patterns = Except.ok m)
    (s : String) (n : Nat) (r : Except TError Unit)
    (hl : travLoop w (walkDirF (walkerPred m skipHidden) w.input t) "" 0 true
      = (s, n, r)) :
    w.traverse skipHidden iL t = { out := some s, count := n, ret := r } := by
  unfold Walker.traverse
  rw [hm]
  dsimp only
  rw [hl]

/-- C9 counterexample: two successful runs that write different numbers of
files return the same value `()` to the caller, so the return value does not
carry the file count. -/
theorem c9_cex :
    (exW4.traverse false none exT4).ret = (exW4.traverse false none exT9).ret
    ∧ (exW4.traverse false none exT4).count = 2
    ∧ (exW4.traverse false none exT9).count = 1 := ⟨rfl, rfl, rfl⟩

/-- C9 (amended): on success the traversal returns unit to its caller, and
the internal `file_count` equals the number of records written (one per
aggregated file); the count is surfaced only through verbose console
output. -/
theorem c9_count_internal (w : Walker) (skipHidden : Bool)
    (iL : Option (List String)) (t : FsNode) (m : ExcludeMatcher)
    (hm : ExcludeMatcher.new w.root iL w.exclude_patterns = Except.ok m)
    (hread : ∀ e ∈ aggEntries w m skipHidden t, e.content.isSome = true) :
    (w.traverse skipHidden iL t).ret = Except.ok ()
    ∧ (w.traverse skipHidden iL t).count
        = (aggEntries w m skipHidden t).length := by
  have hl := travLoop_all_ok w (walkDirF (walkerPred m skipHidden) w.input t)
    "" 0 true hread
  rw [traverse_eval w skipHidden iL t m hm _ _ _ hl]
  refine ⟨rfl, ?_⟩
  simp [aggEntries]

/-- Witness for C9 (amended): a run over two files returns `()` with an
internal count of 2. -/
theorem c9_witness :
    (exW4.traverse false none exT4).ret = Except.ok ()
    ∧ (exW4.traverse false none exT4).count
        = (aggEntries exW4 exMnone false exT4).length :=
  c9_count_internal exW4 false none exT4 exMnone rfl (by decide)

/-- C6: when the first unreadable aggregated file is `bad`, the traversal
fails with a fatal content read error (the record is not silently skipped),
and the output file holds exactly the complete records of the preceding
files plus the complete header line of `bad` — an internally consistent
record boundary. -/
theorem c6_content_error_fatal (w : Walker) (skipHidden : Bool)
    (iL : Option (List String)) (t : FsNode) (m : ExcludeMatcher)
    (hm : ExcludeMatcher.new w.root iL w.exclude_patterns = Except.ok m)
    (good : List Entry) (bad : Entry) (rest : List Entry)
    (hsplit : aggEntries w m skipHidden t = good ++ bad :: rest)
    (hgood : ∀ e ∈ good, e.content.isSome = true)
    (hbad : bad.content = none) :
    (w.traverse skipHidden iL t).ret = Except.error TError.contentReadError
    ∧ (w.traverse skipHidden iL t).out
        = some (joinNl (good.map (recordStr w) ++ [headerLine w bad])) := by
  have hl := travLoop_first_bad w (walkDirF (walkerPred m skipHidden) w.input t)
    "" 0 true good bad rest hsplit hgood hbad
  rw [traverse_eval w skipHidden iL t m hm _ _ _ hl]
  refine ⟨rfl, ?_⟩
  dsimp only
  rw [str_empty_append, Bool.true_and, chunk_true_concat]

/-- Witness for C6: the tree with `a.txt`, undecodable `bad.bin` and `c.txt`
aborts after writing the `a.txt` record and the `bad.bin` header. -/
theorem c6_witness :
    (exW4.traverse false none exT6).ret = Except.error TError.contentReadError
    ∧ (exW4.traverse false none exT6).out
        = some (joinNl
            (([{ path := exRootP ++ [Comp.normal (FName.utf8 "a.txt")],
                 name := FName.utf8 "a.txt", isDir := false,
                 content := some "hi" }] : List Entry).map (recordStr exW4)
             ++ [headerLine exW4
                  { path := exRootP ++ [Comp.normal (FName.utf8 "bad.bin")],
                    name := FName.utf8 "bad.bin", isDir := false, content := none }])) :=
  c6_content_error_fatal exW4 false none exT6 exMnone rfl
    [{ path := exRootP ++ [Comp.normal (FName.utf8 "a.txt")], name := FName.utf8 "a.txt",
       isDir := false, content := some "hi" }]
    { path := exRootP ++ [Comp.normal (FName.utf8 "bad.bin")], name := FName.utf8 "bad.bin",
      isDir := false, content := none }
    [{ path := exRootP ++ [Comp.normal (FName.utf8 "c.txt")], name := FName.utf8 "c.txt",
       isDir := false, content := some "zz" }]
    (by decide) (by decide) rfl

/-! String-counting lemmas for the record-format invariants. -/

/-- Append distributes over `String.data`. -/
theorem str_data_append (a b : String) : (a ++ b).data = a.data ++ b.data := rfl

/-- `splitNl` never returns the empty list. -/
theorem splitNl_ne_nil : ∀ l : List Char, splitNl l ≠ [] := by
  intro l
  cases l with
  | nil => simp [splitNl]
  | cons c rest =>
    rw [splitNl]
    by_cases h : c = '\n'
    · simp [h]
    · rw [if_neg h]
      cases hs : splitNl rest <;> simp

/-- `splitNl` splits at an explicit newline. -/
theorem splitNl_append_nl : ∀ a b : List Char,
    splitNl (a ++ '\n' :: b) = splitNl a ++ splitNl b := by
  intro a b
  induction a with
  | nil => simp [splitNl]
  | cons c a2 ih =>
    by_cases h : c = '\n'
    · subst h
      rw [List.cons_append, splitNl, if_pos rfl, ih]
      rw [splitNl, if_pos rfl]
      rfl
    · rw [List.cons_append, splitNl, if_neg h, ih]
      rw [splitNl, if_neg h]
      cases hs : splitNl a2 with
      | nil => exact absurd hs (splitNl_ne_nil a2)
      | cons l ls => rfl

/-- A newline-free text is a single line. -/
theorem splitNl_no_nl : ∀ a : List Char, '\n' ∉ a → splitNl a = [a] := by
  intro a
  induction a with
  | nil => intro _; rfl
  | cons c a2 ih =>
    intro h
    have hc : ¬ c = '\n' := fun hh => h (hh ▸ List.mem_cons_self ..)
    rw [splitNl, if_neg hc, ih (fun hm => h (List.mem_cons_of_mem _ hm))]

/-- A newline-free pattern cannot reach across a newline. -/
theorem isPfx_break : ∀ (pat a b : List Char), '\n' ∉ pat →
    isPfx pat (a ++ '\n' :: b) = isPfx pat a := by
  intro pat
  induction pat with
  | nil => intro a b _; rfl
  | cons p ps ih =>
    intro a b h
    have hp : ¬ p = '\n' := fun hh => h (hh ▸ List.mem_cons_self ..)
    cases a with
    | nil =>
      rw [List.nil_append]
      show (if p = '\n' then isPfx ps b else false) = isPfx (p :: ps) []
      rw [if_neg hp]
      rfl
    | cons c a2 =>
      rw [List.cons_append]
      show (if p = c then isPfx ps (a2 ++ '\n' :: b) else false)
          = (if p = c then isPfx ps a2 else false)
      by_cases hc : p = c
      · rw [if_pos hc, if_pos hc, ih a2 b (fun hm => h (List.mem_cons_of_mem _ hm))]
      · rw [if_neg hc, if_neg hc]

/-- Occurrences of a nonempty newline-free pattern split at a newline. -/
theorem countOcc_break (pat : List Char) (hne : pat ≠ []) (hnl : '\n' ∉ pat) :
    ∀ a b : List Char,
      countOcc pat (a ++ '\n' :: b) = countOcc pat a + countOcc pat b := by
  intro a b
  induction a with
  | nil =>
    rw [List.nil_append]
    cases pat with
    | nil => exact absurd rfl hne
    | cons p ps =>
      have hp : ¬ p = '\n' := fun hh => hnl (hh ▸ List.mem_cons_self ..)
      have hpf : isPfx (p :: ps) ('\n' :: b) = false := by
        show (if p = '\n' then isPfx ps b else false) = false
        rw [if_neg hp]
      show (cond (isPfx (p :: ps) ('\n' :: b)) 1 0) + countOcc (p :: ps) b
          = countOcc (p :: ps) [] + countOcc (p :: ps) b
      rw [hpf]
      rfl
  | cons c a2 ih =>
    rw [List.cons_append, countOcc, countOcc]
    rw [show (c :: (a2 ++ '\n' :: b)) = ((c :: a2) ++ '\n' :: b) from rfl]
    rw [isPfx_break pat (c :: a2) b hnl]
    rw [ih]
    omega

/-- One header occurrence at the marker itself. -/
theorem countOcc_hdr_cons (l : List Char) :
    countOcc hdrPat ('=' :: '=' :: '>' :: ' ' :: l) = 1 + countOcc hdrPat l := by
  simp [countOcc, isPfx, hdrPat]

/-- The header marker is nonempty. -/
theorem hdrPat_ne_nil : hdrPat ≠ [] := by decide

/-- The header marker contains no newline. -/
theorem hdrPat_no_nl : '\n' ∉ hdrPat := by decide

/-- The record of a tidy entry contains exactly one header occurrence, ends
in a final newline segment, and has no blank line before it. -/
theorem record_per (w : Walker) (e : Entry) (ht : tidy w e = true) :
    countOcc hdrPat (recordStr w e).data = 1
    ∧ (splitNl (recordStr w e).data).getLast? = some []
    ∧ [] ∉ (splitNl (recordStr w e).data).dropLast := by
  rw [tidy] at ht
  simp only [Bool.and_eq_true, Bool.not_eq_true', decide_eq_true_eq] at ht
  obtain ⟨⟨⟨hrnl, hr0⟩, hb0⟩, hbmem⟩ := ht
  have hrelnl : '\n' ∉ (dispPath (stripPfx w.root e.path)).data := by
    intro hm
    have hc : (dispPath (stripPfx w.root e.path)).data.contains '\n' = true :=
      List.elem_iff.mpr hm
    rw [hc] at hrnl
    cases hrnl
  have hbmem2 : [] ∉ splitNl (trimEnd (e.content.getD "")).data := by
    intro hm
    have hc : (splitNl (trimEnd (e.content.getD "")).data).contains [] = true :=
      List.elem_iff.mpr hm
    rw [hc] at hbmem
    cases hbmem
  have hdata : (recordStr w e).data
      = (['=', '=', '>', ' '] ++ (dispPath (stripPfx w.root e.path)).data)
        ++ '\n' :: ((trimEnd (e.content.getD "")).data ++ '\n' :: []) := by
    show (((['=', '=', '>', ' '] ++ (dispPath (stripPfx w.root e.path)).data)
        ++ ['\n']) ++ (trimEnd (e.content.getD "")).data) ++ ['\n'] = _
    simp [List.append_assoc]
  refine ⟨?_, ?_, ?_⟩
  · rw [hdata]
    rw [show ((['=', '=', '>', ' '] ++ (dispPath (stripPfx w.root e.path)).data))
        = ('=' :: '=' :: '>' :: ' ' :: (dispPath (stripPfx w.root e.path)).data)
      from rfl]
    rw [countOcc_break hdrPat hdrPat_ne_nil hdrPat_no_nl]
    rw [countOcc_break hdrPat hdrPat_ne_nil hdrPat_no_nl]
    rw [countOcc_hdr_cons, hr0, hb0]
    rfl
  · rw [hdata, splitNl_append_nl, splitNl_append_nl]
    rw [show splitNl ([] : List Char) = [[]] from rfl]
    rw [← List.append_assoc, List.getLast?_concat]
  · rw [hdata, splitNl_append_nl, splitNl_append_nl]
    rw [show splitNl ([] : List Char) = [[]] from rfl]
    rw [← List.append_assoc, List.dropLast_concat]
    rw [splitNl_no_nl _ (by
      intro hm
      rcases List.mem_append.mp hm with h1 | h2
      · exact absurd h1 (by decide)
      · exact hrelnl h2)]
    intro hm
    rcases List.mem_append.mp hm with h1 | h2
    · rcases List.mem_singleton.mp h1 with h3
      cases h3
    · exact hbmem2 h2

/-- Header occurrences of a newline join of records with one occurrence
each. -/
theorem countOcc_hdr_joinNl : ∀ rs : List String,
    (∀ r ∈ rs, countOcc hdrPat r.data = 1) →
    countOcc hdrPat (joinNl rs).data = rs.length := by
  intro rs
  induction rs with
  | nil => intro _; rfl
  | cons r rest ih =>
    intro h
    cases rest with
    | nil =>
      rw [joinNl]
      simpa using h r (List.mem_singleton.mpr rfl)
    | cons s t =>
      rw [show joinNl (r :: s :: t) = r ++ "\n" ++ joinNl (s :: t) from rfl]
      rw [show (r ++ "\n" ++ joinNl (s :: t)).data
          = r.data ++ '\n' :: (joinNl (s :: t)).data from by
        simp [str_data_append, List.append_assoc]]
      rw [countOcc_break hdrPat hdrPat_ne_nil hdrPat_no_nl]
      rw [h r (List.mem_cons_self ..), ih (fun x hx => h x (List.mem_cons_of_mem _ hx))]
      all_goals simp only [List.length_cons]
      all_goals omega

/-- Blank text lines of a newline join of records each ending in a final
newline segment with no earlier blank line: one blank separator per joint. -/
theorem countBlank_joinNl : ∀ rs : List String,
    (∀ r ∈ rs, (splitNl r.data).getLast? = some []
      ∧ [] ∉ (splitNl r.data).dropLast) →
    countBlank (joinNl rs) = rs.length - 1 := by
  intro rs
  induction rs with
  | nil => intro _; rfl
  | cons r rest ih =>
    intro h
    cases rest with
    | nil =>
      rw [joinNl, countBlank]
      rcases h r (List.mem_singleton.mpr rfl) with ⟨_, hmem⟩
      have h0 : ((splitNl r.data).dropLast.countP (fun l => l.isEmpty)) = 0 :=
        List.countP_eq_zero.mpr (by
          intro x hx
          simp only [List.isEmpty_iff]
          intro hxe
          exact hmem (hxe ▸ hx))
      simpa using h0
    | cons s t =>
      rw [show joinNl (r :: s :: t) = r ++ "\n" ++ joinNl (s :: t) from rfl, countBlank]
      rw [show (r ++ "\n" ++ joinNl (s :: t)).data
          = r.data ++ '\n' :: (joinNl (s :: t)).data from by
        simp [str_data_append, List.append_assoc]]
      rw [splitNl_append_nl]
      rw [List.dropLast_append_of_ne_nil _ (splitNl_ne_nil _)]
      rw [List.countP_append]
      rcases h r (List.mem_cons_self ..) with ⟨hlast, hmem⟩
      have hsplitr : splitNl r.data = (splitNl r.data).dropLast ++ [[]] := by
        cases hs : splitNl r.data with
        | nil => exact absurd hs (splitNl_ne_nil _)
        | cons x xs =>
          rw [hs] at hlast
          have := List.getLast?_eq_getLast (x :: xs) (by simp)
          rw [this] at hlast
          injection hlast with hx
          rw [← hx]
          exact (List.dropLast_append_getLast (by simp)).symm
      have hcount1 : (splitNl r.data).countP (fun l => l.isEmpty) = 1 := by
        rw [hsplitr, List.countP_append]
        rw [List.countP_eq_zero.mpr]
        · rfl
        · intro x hx
          simp only [List.isEmpty_iff]
          intro hxe
          exact hmem (hxe ▸ hx)
      rw [hcount1]
      have := ih (fun x hx => h x (List.mem_cons_of_mem _ hx))
      rw [countBlank] at this
      rw [this]
      all_goals simp only [List.length_cons]
      all_goals omega

/-- C4 counterexample: with an empty file and a file whose content contains
the header marker, a two-file run produces three occurrences of `==> ` and
two blank lines, not two and one as the claim states. -/
theorem c4_cex :
    (exW4.traverse false none exT4).out = some exStr4
    ∧ (aggEntries exW4 exMnone false exT4).length = 2
    ∧ countOcc hdrPat exStr4.data = 3
    ∧ countBlank exStr4 = 2 := ⟨rfl, rfl, rfl, rfl⟩

/-- C4 (amended): the output stream is exactly the records of the aggregated
files, in order, each record being the `==> ` header line followed by the
trimmed content and one newline, with a single separating newline between
consecutive records (no leading separator, none after the final newline);
when moreover every record is tidy — its header path has no newline and
neither the path nor the trimmed content contains `==> ` or a blank line —
the output contains exactly N occurrences of `==> ` and exactly N−1 blank
text lines. -/
theorem c4_record_format (w : Walker) (skipHidden : Bool)
    (iL : Option (List String)) (t : FsNode) (m : ExcludeMatcher)
    (hm : ExcludeMatcher.new w.root iL w.exclude_patterns = Except.ok m)
    (hread : ∀ e ∈ aggEntries w m skipHidden t, e.content.isSome = true) :
    (w.traverse skipHidden iL t).out
        = some (joinNl ((aggEntries w m skipHidden t).map (recordStr w)))
    ∧ (w.traverse skipHidden iL t).ret = Except.ok ()
    ∧ ((∀ e ∈ aggEntries w m skipHidden t, tidy w e = true) →
        countOcc hdrPat
            (joinNl ((aggEntries w m skipHidden t).map (recordStr w))).data
          = (aggEntries w m skipHidden t).length
        ∧ countBlank (joinNl ((aggEntries w m skipHidden t).map (recordStr w)))
          = (aggEntries w m skipHidden t).length - 1) := by
  have hl := travLoop_all_ok w (walkDirF (walkerPred m skipHidden) w.input t)
    "" 0 true hread
  rw [traverse_eval w skipHidden iL t m hm _ _ _ hl]
  refine ⟨?_, rfl, ?_⟩
  · dsimp only
    rw [str_empty_append, chunk_true_joinNl]
    rfl
  · intro htidy
    constructor
    · rw [countOcc_hdr_joinNl _ (fun r hr => by
        rcases List.mem_map.mp hr with ⟨e, he, rfl⟩
        exact (record_per w e (htidy e he)).1)]
      exact List.length_map ..
    · rw [countBlank_joinNl _ (fun r hr => by
        rcases List.mem_map.mp hr with ⟨e, he, rfl⟩
        exact ⟨(record_per w e (htidy e he)).2.1, (record_per w e (htidy e he)).2.2⟩)]
      rw [List.length_map]

/-- Witness for C4 (amended): two tidy files produce exactly their two
records, two headers and one blank separator. -/
theorem c4_witness :
    (exW4.traverse false none exT6x).out
        = some (joinNl ((aggEntries exW4 exMnone false exT6x).map (recordStr exW4)))
    ∧ (exW4.traverse false none exT6x).ret = Except.ok ()
    ∧ countOcc hdrPat
          (joinNl ((aggEntries exW4 exMnone false exT6x).map (recordStr exW4))).data
        = (aggEntries exW4 exMnone false exT6x).length
    ∧ countBlank (joinNl ((aggEntries exW4 exMnone false exT6x).map (recordStr exW4)))
        = (aggEntries exW4 exMnone false exT6x).length - 1 := by
  have h := c4_record_format exW4 false none exT6x exMnone rfl (by decide)
  exact ⟨h.1, h.2.1, (h.2.2 (by decide)).1, (h.2.2 (by decide)).2⟩

end Treeclip
